import Mathlib

/-!
Verification of the yabridge cross-process bridge core against its
natural-language specification.

The development shallowly embeds the data model and operations of the
bridge: the editor embedding state machine, the per-channel
request/response protocol, the host-callback guard, the pending-MIDI
buffer, session teardown, the group-endpoint resolver, PE architecture
detection, and the `find_dominating_file` directory walk from
`src/plugin/utils.h`.
-/

namespace Yabridge

/-! ## Editor embedding state machine (§4.5 of the spec) -/

/-- Modelled from the spec: the tri-state `editor` field of `Vst2Bridge`
(`std::variant<std::monostate, Editor, EditorOpening>`): `Closed` is
`std::monostate`, `Opening` is the `EditorOpening` marker, and `Open w`
is an `Editor` object embedding the window handle `w`. -/
inductive EditorState where
  | Closed : EditorState
  | Opening : EditorState
  | Open : Nat → EditorState
deriving DecidableEq, Repr

/-- The dispatcher opcodes relevant to the editor state machine, plus a
catch-all for every other opcode forwarded unmodified. -/
inductive EditorOp where
  | effEditGetRect : EditorOp
  | effEditOpen : Nat → EditorOp
  | effEditClose : EditorOp
  | other : Nat → EditorOp
deriving DecidableEq, Repr

/-- A window-ownership action performed by a transition: creating and
embedding a native window, or releasing the embedded window. -/
inductive WindowAction where
  | createAndEmbed : Nat → WindowAction
  | release : WindowAction
deriving DecidableEq, Repr

/-- Modelled from the spec: the body of `Vst2Bridge::dispatch_wrapper` is
not in the sources (only its declaration); §4.5 gives its transitions:
`Closed → Opening` on the editor-rectangle query, `Opening → Open` on the
open call (creating and embedding a window), `Open → Closed` on the close
call (releasing the window), and every other combination is a no-op. -/
def editorStep : EditorState → EditorOp → EditorState × Option WindowAction
  | .Closed, .effEditGetRect => (.Opening, none)
  | .Opening, .effEditOpen w => (.Open w, some (.createAndEmbed w))
  | .Open _, .effEditClose => (.Closed, some .release)
  | s, _ => (s, none)

/-- Modelled from the spec: the dispatch/GUI-loop thread pumps Win32
message-loop events only while the editor state is not `Opening`
(§4.5 and §5: message pumping is suspended during `Opening`). -/
def pumpsMessages : EditorState → Bool
  | .Opening => false
  | _ => true

/-- Number of open editor windows represented by a state. -/
def openWindowCount : EditorState → Nat
  | .Open _ => 1
  | _ => 0

/-! ## Filesystem paths and `find_dominating_file` (src/plugin/utils.h) -/

/-- A model of a `boost::filesystem::path`: an optional root (`absolute`)
followed by a list of name components.  `⟨false, []⟩` models the empty
path `""`, `⟨true, []⟩` models `"/"`. -/
structure BPath where
  absolute : Bool
  components : List String
deriving DecidableEq, Repr

/-- The empty path `""`, against which the loop in `find_dominating_file`
compares. -/
def BPath.empty : BPath := ⟨false, []⟩

/-- `boost::filesystem::path::parent_path`: drops the last component;
the parent of `"/"` (and of `""`) is `""`. -/
def BPath.parent : BPath → BPath
  | ⟨_, []⟩ => ⟨false, []⟩
  | ⟨abs, cs⟩ => ⟨abs, cs.dropLast⟩

/-- `operator/`: appending one filename component to a path. -/
def BPath.child (p : BPath) (f : String) : BPath :=
  ⟨p.absolute, p.components ++ [f]⟩

/-- Number of `parent` steps needed to reach the empty path. -/
def BPath.height (p : BPath) : Nat :=
  p.components.length + (if p.absolute then 1 else 0)

/-- The loop of `find_dominating_file` from `src/plugin/utils.h`:
starting from `starting_dir`, check `starting_dir / filename` against the
predicate, return the candidate on success, otherwise continue from the
parent path; give up when the directory has become the empty path. -/
def find_dominating_file (filename : String) (starting_dir : BPath)
    (pred : BPath → Bool) : Option BPath :=
  if h : starting_dir = BPath.empty then none
  else
    if pred (starting_dir.child filename) then some (starting_dir.child filename)
    else find_dominating_file filename starting_dir.parent pred
termination_by starting_dir.height
decreasing_by
  obtain ⟨abs, cs⟩ := starting_dir
  cases cs with
  | nil =>
    cases abs with
    | false => exact absurd rfl h
    | true => simp [BPath.parent, BPath.height]
  | cons c cs =>
    simp [BPath.parent, BPath.height, List.length_dropLast]

/-- The ancestor chain of a path: the path itself first, then each
successive parent, stopping before the empty path. -/
def BPath.ancestors (p : BPath) : List BPath :=
  if h : p = BPath.empty then []
  else p :: p.parent.ancestors
termination_by p.height
decreasing_by
  obtain ⟨abs, cs⟩ := p
  cases cs with
  | nil =>
    cases abs with
    | false => exact absurd rfl h
    | true => simp [BPath.parent, BPath.height]
  | cons c cs =>
    simp [BPath.parent, BPath.height, List.length_dropLast]

/-- `find_dominating_file` instrumented to also record every candidate
path the predicate is applied to, in order. -/
def find_dominating_file_probed (filename : String) (starting_dir : BPath)
    (pred : BPath → Bool) : Option BPath × List BPath :=
  if h : starting_dir = BPath.empty then (none, [])
  else
    if pred (starting_dir.child filename) then
      (some (starting_dir.child filename), [starting_dir.child filename])
    else
      let r := find_dominating_file_probed filename starting_dir.parent pred
      (r.1, starting_dir.child filename :: r.2)
termination_by starting_dir.height
decreasing_by
  obtain ⟨abs, cs⟩ := starting_dir
  cases cs with
  | nil =>
    cases abs with
    | false => exact absurd rfl h
    | true => simp [BPath.parent, BPath.height]
  | cons c cs =>
    simp [BPath.parent, BPath.height, List.length_dropLast]

/-- A sample predicate used to exercise `find_dominating_file` at
concrete inputs: matches exactly the path `/a/f`. -/
def samplePred : BPath → Bool := fun p => p == ⟨true, ["a", "f"]⟩

/-! ## Channel transport protocol (§4.1, §3 "Channel set") -/

/-- The five channels of the session's channel set, one per traffic
class, matching the five sockets declared in `Vst2Bridge`
(`host_vst_dispatch`, `host_vst_dispatch_midi_events`,
`vst_host_callback`, `host_vst_parameters`,
`host_vst_process_replacing`). -/
inductive Channel where
  | dispatch : Channel
  | dispatchMidi : Channel
  | hostCallback : Channel
  | parameters : Channel
  | audio : Channel
deriving DecidableEq, Repr

/-- One observable event on the channel set: a request sent on a channel
or a response received on it. -/
inductive ChanEvent where
  | request : Channel → ChanEvent
  | response : Channel → ChanEvent
deriving DecidableEq, Repr

/-- Protocol state: for each channel, whether a request is outstanding
(sent and not yet answered). -/
def ChanState := Channel → Bool

/-- At session start no request is outstanding on any channel. -/
def initChan : ChanState := fun _ => false

/-- Update the outstanding-request flag of one channel. -/
def setChan (s : ChanState) (c : Channel) (b : Bool) : ChanState :=
  fun c' => if c' = c then b else s c'

/-- Modelled from the spec: the channel send/receive bodies
(`send_event` and friends) are not in src/ (only the socket declarations
are); §4.1's contract is one-at-a-time request/response per channel: a
request may be issued only when no request is outstanding on that
channel, and a response is received only for the outstanding request. -/
def chanStep (s : ChanState) : ChanEvent → Option ChanState
  | .request c => if s c then none else some (setChan s c true)
  | .response c => if s c then some (setChan s c false) else none

/-- Run a list of channel events through the protocol; `none` marks a
protocol violation. -/
def chanRun (s : ChanState) : List ChanEvent → Option ChanState
  | [] => some s
  | e :: es =>
    match chanStep s e with
    | none => none
    | some s' => chanRun s' es

/-- A trace of channel events that obeys the protocol. -/
def validTrace (t : List ChanEvent) : Prop :=
  (chanRun initChan t).isSome = true

/-- Number of requests issued on channel `c` in a trace. -/
def reqCount (c : Channel) : List ChanEvent → Nat
  | [] => 0
  | .request c' :: es => (if c' = c then 1 else 0) + reqCount c es
  | .response _ :: es => reqCount c es

/-- Number of responses received on channel `c` in a trace. -/
def respCount (c : Channel) : List ChanEvent → Nat
  | [] => 0
  | .request _ :: es => respCount c es
  | .response c' :: es => (if c' = c then 1 else 0) + respCount c es

/-- Projection of a trace onto one channel: `true` for each of its
requests, `false` for each of its responses. -/
def chanProj (c : Channel) (t : List ChanEvent) : List Bool :=
  t.filterMap (fun e =>
    match e with
    | .request c' => if c' = c then some true else none
    | .response c' => if c' = c then some false else none)

/-- `alternatesFrom b l`: `l` starts with `b` and strictly alternates
thereafter. -/
def alternatesFrom : Bool → List Bool → Bool
  | _, [] => true
  | b, x :: xs => (x == b) && alternatesFrom (!b) xs

/-! ## Pending MIDI buffer (§3 "Pending MIDI buffer", §4.4, §4.6) -/

/-- Events on the pending-MIDI buffer shared between the MIDI-dispatch
worker (producer) and the audio worker (consumer); batches are
identified by numbers. -/
inductive MidiEvent where
  | append : Nat → MidiEvent
  | audioBegin : MidiEvent
  | audioEnd : MidiEvent
deriving DecidableEq, Repr

/-- The `next_audio_buffer_midi_events` buffer plus the audio worker's
phase: `processing = some n` while an audio call is running, where `n`
is the number of batches present when the call began. -/
structure MidiState where
  buffer : List Nat
  processing : Option Nat
deriving DecidableEq, Repr

/-- Modelled from the spec: the bodies of
`Vst2Bridge::handle_dispatch_midi_events` and
`Vst2Bridge::handle_process_replacing` are not in src/ (only their
declarations and the buffer's doc comment); per §3/§4.4/§4.6 batches are
appended under the buffer lock at any time, an audio call can begin only
when none is running, and only when the call ends (after the plugin has
consumed the block) are exactly the batches that were present at its
start released. -/
def midiExec (s : MidiState) : MidiEvent → Option MidiState
  | .append b => some { s with buffer := s.buffer ++ [b] }
  | .audioBegin =>
    match s.processing with
    | none => some { s with processing := some s.buffer.length }
    | some _ => none
  | .audioEnd =>
    match s.processing with
    | some n => some { buffer := s.buffer.drop n, processing := none }
    | none => none

/-- Run a list of MIDI-buffer events. -/
def midiRun (s : MidiState) : List MidiEvent → Option MidiState
  | [] => some s
  | e :: es =>
    match midiExec s e with
    | none => none
    | some s' => midiRun s' es

/-- Initial MIDI-buffer state: empty buffer, no audio call running. -/
def midiInit : MidiState := ⟨[], none⟩

/-! ## Host-callback guard (§4.3, `host_callback_mutex`) -/

/-- Two foreign-side worker threads of the plugin attempting host
callbacks concurrently (the claim is about a pair of concurrent
attempts). -/
inductive Caller where
  | c0 : Caller
  | c1 : Caller
deriving DecidableEq, Repr, Fintype

/-- The four program steps of one host-callback round-trip: acquire the
guard, send the request, receive the response, release the guard. -/
inductive CbAction where
  | acquire : CbAction
  | send : CbAction
  | recv : CbAction
  | release : CbAction
deriving DecidableEq, Repr

/-- A byte-stream event on the single callback channel: the bytes of a
request sent by a caller, or the bytes of the response it receives. -/
inductive CbMsg where
  | sent : Caller → CbMsg
  | received : Caller → CbMsg
deriving DecidableEq, Repr

/-- Shared state of the host-callback forwarder: who holds
`host_callback_mutex`, each caller's program counter (0 = before
acquire, 1 = guard held, 2 = request sent, 3 = response received,
4 = done), and the byte-level event trace on the callback channel. -/
structure CbState where
  lock : Option Caller
  pc : Caller → Nat
  trace : List CbMsg

/-- Update one caller's program counter. -/
def cbPcSet (pc : Caller → Nat) (t : Caller) (n : Nat) : Caller → Nat :=
  fun u => if u = t then n else pc u

/-- Modelled from the spec: the body of `Vst2Bridge::host_callback` is
not in src/ (only the declaration of `host_callback_mutex` and its
comment); per §4.3 each callback acquires the guard before sending,
receives its response while still holding the guard, and releases the
guard only after the response is received; `acquire` blocks while the
guard is held. -/
def cbExec (s : CbState) (t : Caller) : CbAction → Option CbState
  | .acquire =>
    if s.pc t = 0 ∧ s.lock = none then
      some { s with lock := some t, pc := cbPcSet s.pc t 1 }
    else none
  | .send =>
    if s.pc t = 1 ∧ s.lock = some t then
      some { s with trace := s.trace ++ [.sent t], pc := cbPcSet s.pc t 2 }
    else none
  | .recv =>
    if s.pc t = 2 ∧ s.lock = some t then
      some { s with trace := s.trace ++ [.received t], pc := cbPcSet s.pc t 3 }
    else none
  | .release =>
    if s.pc t = 3 ∧ s.lock = some t then
      some { s with lock := none, pc := cbPcSet s.pc t 4 }
    else none

/-- Run an interleaving (schedule) of caller steps; `none` marks a
blocked or impossible step taken. -/
def cbRun (s : CbState) : List (Caller × CbAction) → Option CbState
  | [] => some s
  | (t, a) :: rest =>
    match cbExec s t a with
    | none => none
    | some s' => cbRun s' rest

/-- Initial forwarder state: guard free, both callers before acquire,
empty channel trace. -/
def cbInit : CbState := ⟨none, fun _ => 0, []⟩

/-- The channel events contributed by a caller at program counter
`p`: nothing before its send, its request alone after the send, and its
full round-trip once the response is received. -/
def cbContrib (p : Nat) (t : Caller) : List CbMsg :=
  if p ≤ 1 then [] else if p = 2 then [.sent t] else [.sent t, .received t]

/-- Invariant of the host-callback forwarder: program counters are in
range, any caller between acquire and release holds the guard, and the
channel trace is a concatenation of per-caller contiguous blocks, one
block per caller that has sent, with a caller mid round-trip only in the
last (still open) block. -/
def CbInv (s : CbState) : Prop :=
  (∀ t, s.pc t ≤ 4)
  ∧ (∀ t, (s.pc t = 1 ∨ s.pc t = 2 ∨ s.pc t = 3) → s.lock = some t)
  ∧ ∃ order : List Caller, order.Nodup
      ∧ (∀ t, t ∈ order ↔ 2 ≤ s.pc t)
      ∧ s.trace = order.flatMap (fun t => cbContrib (s.pc t) t)
      ∧ ∀ t, s.pc t = 2 → order.getLast? = some t

/-- A concrete schedule: caller `c0` performs a complete round-trip,
then caller `c1` does. -/
def cbSched01 : List (Caller × CbAction) :=
  [(.c0, .acquire), (.c0, .send), (.c0, .recv), (.c0, .release),
   (.c1, .acquire), (.c1, .send), (.c1, .recv), (.c1, .release)]

/-! ## Session lifecycle and peer disconnect (§4.1 failure, §5, §7) -/

/-- The error taxonomy of §7. -/
inductive BridgeError where
  | SetupFailure : BridgeError
  | PeerDisconnected : BridgeError
  | UnsupportedBinary : BridgeError
deriving DecidableEq, Repr

/-- Modelled from the spec: the session lifecycle code is not in src/
(the sources only declare the sockets and worker threads); the session
is modelled by per-channel open flags, per-worker joined flags, and peer
liveness. -/
structure Session where
  chanOpen : Channel → Bool
  workerJoined : Channel → Bool
  peerAlive : Bool

/-- Modelled from the spec: a channel call fails with `PeerDisconnected`
when the peer process has exited or the channel socket is closed (§4.1);
it is a total function, so a call always returns rather than hanging. -/
def channelCall (s : Session) (c : Channel) (req : Nat) :
    Except BridgeError Nat :=
  if s.peerAlive && s.chanOpen c then .ok req else .error .PeerDisconnected

/-- Modelled from the spec: session teardown closes all channels and
joins all workers before the session object is destroyed (§5). -/
def teardown (s : Session) : Session :=
  { chanOpen := fun _ => false
    workerJoined := fun _ => true
    peerAlive := s.peerAlive }

/-- A torn-down session: every channel closed, every worker joined. -/
def tornDown (s : Session) : Prop :=
  (∀ c, s.chanOpen c = false) ∧ (∀ c, s.workerJoined c = true)

/-! ## Architecture tag and detection (src/plugin/utils.h) -/

/-- The architecture tag from `src/plugin/utils.h`: `enum class
PluginArchitecture { vst_32, vst_64 }`. -/
inductive PluginArchitecture where
  | vst_32 : PluginArchitecture
  | vst_64 : PluginArchitecture
deriving DecidableEq, Repr

/-- Read `count` bytes little-endian starting at offset `off` from a
file modelled as its list of byte values; `none` when the file is too
short. -/
def readBytesLE (file : List Nat) (off : Nat) : Nat → Option Nat
  | 0 => some 0
  | count + 1 =>
    match file[off]? with
    | none => none
    | some b =>
      match readBytesLE file (off + 1) count with
      | none => none
      | some rest => some (b + 256 * rest)

/-- Modelled from the spec: the body of `find_vst_architecture` is not
in src/ (only its declaration); per its doc comment it determines the
architecture from the .dll file's PE32 header values: the `MZ` DOS
magic, the `PE\0\0` signature at the offset stored at `0x3C`, and the
machine field right after the signature (`0x014c` = 32-bit, `0x8664` =
64-bit); any file not matching this layout is not a recognized
executable image and the function fails. -/
def find_vst_architecture (file : List Nat) :
    Except BridgeError PluginArchitecture :=
  match readBytesLE file 0 2 with
  | none => .error .UnsupportedBinary
  | some magic =>
    if magic = 0x5A4D then
      match readBytesLE file 0x3C 4 with
      | none => .error .UnsupportedBinary
      | some lfanew =>
        match readBytesLE file lfanew 4 with
        | none => .error .UnsupportedBinary
        | some sig =>
          if sig = 0x00004550 then
            match readBytesLE file (lfanew + 4) 2 with
            | none => .error .UnsupportedBinary
            | some machine =>
              if machine = 0x014C then .ok .vst_32
              else if machine = 0x8664 then .ok .vst_64
              else .error .UnsupportedBinary
          else .error .UnsupportedBinary
    else .error .UnsupportedBinary

/-- The file's binary header identifies a PE executable image with the
given machine field: `MZ` magic, `PE\0\0` signature at the offset
stored at `0x3C`, and the machine field after the signature. -/
def identifiesImage (file : List Nat) (machine : Nat) : Prop :=
  readBytesLE file 0 2 = some 0x5A4D
  ∧ ∃ lfanew, readBytesLE file 0x3C 4 = some lfanew
      ∧ readBytesLE file lfanew 4 = some 0x00004550
      ∧ readBytesLE file (lfanew + 4) 2 = some machine

/-- A minimal byte image whose header identifies a 64-bit executable:
`MZ`, e_lfanew = 0x40 stored at offset 0x3C, `PE\0\0` at 0x40, machine
field 0x8664. -/
def peFile64 : List Nat :=
  [0x4D, 0x5A] ++ List.replicate 58 0 ++ [0x40, 0, 0, 0]
    ++ [0x50, 0x45, 0, 0] ++ [0x64, 0x86]

/-! ## Group endpoint resolver (src/plugin/utils.h, `generate_group_endpoint`) -/

/-- Decimal digit characters; inputs ≥ 10 do not occur for digit
lists. -/
def digitToChar : Nat → Char
  | 0 => '0'
  | 1 => '1'
  | 2 => '2'
  | 3 => '3'
  | 4 => '4'
  | 5 => '5'
  | 6 => '6'
  | 7 => '7'
  | 8 => '8'
  | 9 => '9'
  | _ => '*'

/-- Little-endian decimal digits of `n`, with explicit fuel (any fuel
≥ `n` gives the digits of `n`). -/
def decDigits : Nat → Nat → List Nat
  | 0, _ => []
  | _ + 1, 0 => []
  | fuel + 1, n + 1 => ((n + 1) % 10) :: decDigits fuel ((n + 1) / 10)

/-- Decimal rendering of a natural number as its list of digit
characters. -/
def natToDecimal (n : Nat) : List Char :=
  if n = 0 then ['0'] else ((decDigits n n).map digitToChar).reverse

/-- An injective encoding of a character list into a natural number
(base 2^21, one character plus one per limb). -/
def encodeChars : List Char → Nat
  | [] => 0
  | c :: cs => 2097152 * encodeChars cs + (c.toNat + 1)

/-- Modelled from the spec: the `wine_prefix_id` is "a numerical hash
based on the Wine prefix in use" whose purpose is that "the same group
name can be used for multiple Wine prefixes … without clashes"
(`generate_group_endpoint`'s body is not in src/); following the spec's
words it is modelled as an injective encoding of the environment
identity string. -/
def identityHash (identity : String) : Nat :=
  encodeChars identity.data

/-- The architecture component of the group endpoint name. -/
def archLabel : PluginArchitecture → String
  | .vst_32 => "32"
  | .vst_64 => "64"

/-- Modelled from the spec: the body of `generate_group_endpoint` is not
in src/ (only its declaration); its doc comment gives the format
`/tmp/yabridge-group-<group_name>-<wine_prefix_id>-<architecture>.sock`. -/
def generate_group_endpoint (group_name : String) (winePrefixPath : String)
    (architecture : PluginArchitecture) : String :=
  "/tmp/yabridge-group-" ++ group_name ++ "-"
    ++ String.mk (natToDecimal (identityHash winePrefixPath))
    ++ "-" ++ archLabel architecture ++ ".sock"

/-- The same loop with an explicit fuel bound; `none` means the fuel ran
out before the loop finished. -/
def findLoopFuel (fuel : Nat) (filename : String) (d : BPath)
    (pred : BPath → Bool) : Option (Option BPath) :=
  match fuel with
  | 0 => none
  | fuel + 1 =>
    if d = BPath.empty then some none
    else
      if pred (d.child filename) then some (some (d.child filename))
      else findLoopFuel fuel filename d.parent pred

/-! ## Claim theorems for the editor state machine -/

/-- Claim C2: the editor state machine moves only along
`Closed → Opening` (on the editor-rectangle query), `Opening → Open`
(on the open-editor dispatch) and `Open → Closed` (on the close
dispatch); every other step leaves the state unchanged.  Message pumping
is suspended exactly while the state is `Opening`: it is off immediately
after the `Closed → Opening` transition and on again once the open call
arrives. -/
theorem editor_state_machine_path (s : EditorState) (op : EditorOp) :
    ((editorStep s op).1 = s
      ∨ (s = .Closed ∧ op = .effEditGetRect ∧ (editorStep s op).1 = .Opening)
      ∨ (∃ w, s = .Opening ∧ op = .effEditOpen w ∧ (editorStep s op).1 = .Open w)
      ∨ (∃ w, s = .Open w ∧ op = .effEditClose ∧ (editorStep s op).1 = .Closed))
    ∧ pumpsMessages .Opening = false
    ∧ pumpsMessages (editorStep .Closed .effEditGetRect).1 = false
    ∧ (∀ w, pumpsMessages (editorStep .Opening (.effEditOpen w)).1 = true)
    ∧ (∀ s', s' ≠ .Opening → pumpsMessages s' = true) := by
  refine ⟨?_, rfl, rfl, fun w => rfl, ?_⟩
  · cases s with
    | Closed =>
      cases op with
      | effEditGetRect => exact Or.inr (Or.inl ⟨rfl, rfl, rfl⟩)
      | effEditOpen w => exact Or.inl rfl
      | effEditClose => exact Or.inl rfl
      | other n => exact Or.inl rfl
    | Opening =>
      cases op with
      | effEditGetRect => exact Or.inl rfl
      | effEditOpen w => exact Or.inr (Or.inr (Or.inl ⟨w, rfl, rfl, rfl⟩))
      | effEditClose => exact Or.inl rfl
      | other n => exact Or.inl rfl
    | Open w =>
      cases op with
      | effEditGetRect => exact Or.inl rfl
      | effEditOpen w' => exact Or.inl rfl
      | effEditClose => exact Or.inr (Or.inr (Or.inr ⟨w, rfl, rfl, rfl⟩))
      | other n => exact Or.inl rfl
  · intro s' hs'
    cases s' with
    | Closed => rfl
    | Opening => exact absurd rfl hs'
    | Open w => rfl

/-- Claim C3: editor open and close are idempotent: dispatching
open-editor while already `Open` leaves exactly one open window and the
state and performs no window action, and dispatching close-editor while
already `Closed` performs no teardown action and leaves the state
unchanged. -/
theorem editor_open_close_idempotent (w w' : Nat) :
    editorStep (.Open w) (.effEditOpen w') = (.Open w, none)
    ∧ openWindowCount (editorStep (.Open w) (.effEditOpen w')).1 = 1
    ∧ editorStep .Closed .effEditClose = (.Closed, none)
    ∧ openWindowCount (editorStep .Closed .effEditClose).1 = 0 :=
  ⟨rfl, rfl, rfl, rfl⟩

/-! ## Lemmas and claim theorems for `find_dominating_file` -/

theorem BPath.height_parent (p : BPath) (h : p ≠ BPath.empty) :
    p.parent.height + 1 = p.height := by
  obtain ⟨abs, cs⟩ := p
  cases cs with
  | nil =>
    cases abs with
    | false => exact absurd rfl h
    | true => simp [BPath.parent, BPath.height]
  | cons c cs =>
    simp [BPath.parent, BPath.height, List.length_dropLast]
    omega

theorem find_dominating_file_unfold (filename : String) (d : BPath)
    (pred : BPath → Bool) :
    find_dominating_file filename d pred
      = if d = BPath.empty then none
        else if pred (d.child filename) then some (d.child filename)
        else find_dominating_file filename d.parent pred := by
  rw [find_dominating_file.eq_def]
  by_cases h : d = BPath.empty
  · simp [h]
  · simp [h]

theorem BPath.ancestors_unfold (p : BPath) :
    p.ancestors = if p = BPath.empty then [] else p :: p.parent.ancestors := by
  rw [BPath.ancestors.eq_def]
  by_cases h : p = BPath.empty
  · simp [h]
  · simp [h]

theorem find_dominating_file_probed_unfold (filename : String) (d : BPath)
    (pred : BPath → Bool) :
    find_dominating_file_probed filename d pred
      = if d = BPath.empty then (none, [])
        else if pred (d.child filename) then
          (some (d.child filename), [d.child filename])
        else
          ((find_dominating_file_probed filename d.parent pred).1,
            d.child filename :: (find_dominating_file_probed filename d.parent pred).2) := by
  rw [find_dominating_file_probed.eq_def]
  by_cases h : d = BPath.empty
  · simp [h]
  · simp [h]

theorem find_dominating_file_eq_findAnc (filename : String) (d : BPath)
    (pred : BPath → Bool) :
    find_dominating_file filename d pred
      = (d.ancestors.find? (fun a => pred (a.child filename))).map
          (fun a => a.child filename) := by
  induction d, pred using find_dominating_file.induct filename with
  | case1 pred =>
    rw [find_dominating_file_unfold, BPath.ancestors_unfold]
    simp
  | case2 d pred h hp =>
    rw [find_dominating_file_unfold, BPath.ancestors_unfold]
    simp [h, hp]
  | case3 d pred h hp ih =>
    rw [find_dominating_file_unfold, BPath.ancestors_unfold]
    simp [h, hp, ih]

theorem find_dominating_file_probed_spec (filename : String) (d : BPath)
    (pred : BPath → Bool) :
    (find_dominating_file_probed filename d pred).1
        = find_dominating_file filename d pred
    ∧ ∀ c ∈ (find_dominating_file_probed filename d pred).2,
        ∃ a ∈ d.ancestors, c = a.child filename := by
  induction d, pred using find_dominating_file_probed.induct filename with
  | case1 pred =>
    rw [find_dominating_file_probed_unfold, find_dominating_file_unfold]
    simp
  | case2 d pred h hp =>
    rw [find_dominating_file_probed_unfold, find_dominating_file_unfold,
      BPath.ancestors_unfold]
    simp [h, hp]
  | case3 d pred h hp ih =>
    rw [find_dominating_file_probed_unfold, find_dominating_file_unfold,
      BPath.ancestors_unfold]
    simp only [h, if_neg h, hp, Bool.false_eq_true, if_false]
    refine ⟨ih.1, ?_⟩
    intro c hc
    rcases List.mem_cons.mp hc with hc | hc
    · exact ⟨d, List.mem_cons_self _ _, hc⟩
    · obtain ⟨a, ha, hae⟩ := ih.2 c hc
      exact ⟨a, List.mem_cons_of_mem _ ha, hae⟩

theorem findLoopFuel_complete (fuel : Nat) (filename : String) (d : BPath)
    (pred : BPath → Bool) (h : d.height < fuel) :
    findLoopFuel fuel filename d pred
      = some (find_dominating_file filename d pred) := by
  induction fuel generalizing d with
  | zero => omega
  | succ n ih =>
    rw [find_dominating_file_unfold]
    by_cases he : d = BPath.empty
    · simp [findLoopFuel, he]
    · have hh := BPath.height_parent d he
      by_cases hp : pred (d.child filename)
      · simp [findLoopFuel, he, hp]
      · simp only [findLoopFuel, if_neg he, hp, Bool.false_eq_true, if_false]
        exact ih d.parent (by omega)

theorem BPath.iterate_parent_height (p : BPath) :
    Nat.iterate BPath.parent p.height p = BPath.empty := by
  generalize hn : p.height = n
  induction n generalizing p with
  | zero =>
    have hp : p = BPath.empty := by
      obtain ⟨abs, cs⟩ := p
      cases abs <;> cases cs <;> simp_all [BPath.height, BPath.empty]
    simp [hp]
  | succ n ih =>
    have hne : p ≠ BPath.empty := by
      intro he
      rw [he] at hn
      simp [BPath.height, BPath.empty] at hn
    have hh := BPath.height_parent p hne
    rw [Function.iterate_succ_apply]
    exact ih p.parent (by omega)

/-- Claim C9: `find_dominating_file` returns `a / filename` for the
deepest ancestor `a` of the starting directory (the starting directory
itself first, then each successive parent) whose candidate satisfies the
predicate, and `none` exactly when no ancestor's candidate does; it never
returns a candidate whose predicate test failed, and the only candidates
it ever inspects are `a / filename` for ancestors `a` of the starting
directory. -/
theorem find_dominating_file_correct (filename : String) (d : BPath)
    (pred : BPath → Bool) :
    find_dominating_file filename d pred
      = (d.ancestors.find? (fun a => pred (a.child filename))).map
          (fun a => a.child filename)
    ∧ (∀ r, find_dominating_file filename d pred = some r →
        pred r = true ∧ ∃ a ∈ d.ancestors, r = a.child filename)
    ∧ (find_dominating_file filename d pred = none ↔
        ∀ a ∈ d.ancestors, pred (a.child filename) = false)
    ∧ (∀ c ∈ (find_dominating_file_probed filename d pred).2,
        ∃ a ∈ d.ancestors, c = a.child filename) := by
  have heq := find_dominating_file_eq_findAnc filename d pred
  have hpr := find_dominating_file_probed_spec filename d pred
  refine ⟨heq, ?_, ?_, hpr.2⟩
  · intro r hr
    rw [heq] at hr
    obtain ⟨a, ha, hae⟩ := Option.map_eq_some'.mp hr
    refine ⟨?_, a, List.mem_of_find?_eq_some ha, hae.symm⟩
    have := List.find?_some ha
    rw [← hae]
    exact this
  · rw [heq]
    simp only [Option.map_eq_none']
    rw [List.find?_eq_none]
    constructor
    · intro h a ha
      have := h a ha
      simp at this
      exact this
    · intro h a ha
      simp [h a ha]

/-- Witness for C9: at the concrete starting directory `/a/b` with a
predicate accepting exactly `/a/f`, the returned candidate satisfies the
predicate and comes from the ancestor chain. -/
theorem find_dominating_file_correct_witness :
    samplePred ⟨true, ["a", "f"]⟩ = true
    ∧ ∃ a ∈ BPath.ancestors ⟨true, ["a", "b"]⟩,
        (⟨true, ["a", "f"]⟩ : BPath) = a.child "f" := by
  have hf := findLoopFuel_complete 4 "f" ⟨true, ["a", "b"]⟩ samplePred (by decide)
  have hev : findLoopFuel 4 "f" ⟨true, ["a", "b"]⟩ samplePred
      = some (some ⟨true, ["a", "f"]⟩) := by decide
  rw [hev] at hf
  have h2 := (find_dominating_file_correct "f" ⟨true, ["a", "b"]⟩ samplePred).2.1
      ⟨true, ["a", "f"]⟩ (Option.some.inj hf).symm
  exact ⟨h2.1, h2.2⟩

/-- Claim C10: the `find_dominating_file` loop terminates for every
starting path and predicate: iterating `parent_path` reaches the empty
path after exactly `height` steps (absolute or relative), and running the
loop with that much fuel completes with `find_dominating_file`'s result
(a found path or `none`) rather than running out. -/
theorem find_dominating_file_terminates (filename : String) (d : BPath)
    (pred : BPath → Bool) :
    Nat.iterate BPath.parent d.height d = BPath.empty
    ∧ findLoopFuel (d.height + 1) filename d pred
        = some (find_dominating_file filename d pred) :=
  ⟨BPath.iterate_parent_height d,
    findLoopFuel_complete _ _ _ _ (Nat.lt_succ_self _)⟩

/-! ## Lemmas and claim theorem for the channel protocol -/

theorem setChan_same (s : ChanState) (c : Channel) (b : Bool) :
    setChan s c b c = b := by
  simp [setChan]

theorem setChan_other (s : ChanState) (c d : Channel) (b : Bool) (h : ¬d = c) :
    setChan s c b d = s d := by
  simp [setChan, h]

theorem chanRun_count (t : List ChanEvent) :
    ∀ (s s' : ChanState), chanRun s t = some s' → ∀ c,
      reqCount c t + (if s c then 1 else 0)
        = respCount c t + (if s' c then 1 else 0) := by
  induction t with
  | nil =>
    intro s s' h c
    have hs : s = s' := Option.some.inj h
    subst hs
    rfl
  | cons e es ih =>
    intro s s' h c
    cases e with
    | request c' =>
      by_cases hc' : s c' = true
      · simp [chanRun, chanStep, hc'] at h
      · simp only [chanRun, chanStep, if_neg hc'] at h
        have hcount := ih _ s' h c
        by_cases hcc : c' = c
        · subst hcc
          rw [setChan_same] at hcount
          have hsc : s c' = false := by
            cases hsb : s c' with
            | false => rfl
            | true => exact absurd hsb hc'
          simp only [reqCount, if_pos rfl, hsc, Bool.false_eq_true, if_false] at hcount ⊢
          simp only [respCount]
          simp at hcount ⊢
          omega
        · rw [setChan_other s c' c true (fun h2 => hcc h2.symm)] at hcount
          simp only [reqCount, respCount, if_neg hcc] at hcount ⊢
          omega
    | response c' =>
      by_cases hc' : s c' = true
      · simp only [chanRun, chanStep, if_pos hc'] at h
        have hcount := ih _ s' h c
        by_cases hcc : c' = c
        · subst hcc
          rw [setChan_same] at hcount
          simp only [respCount, if_pos rfl, hc', if_true] at hcount ⊢
          simp only [reqCount]
          simp at hcount ⊢
          omega
        · rw [setChan_other s c' c false (fun h2 => hcc h2.symm)] at hcount
          simp only [reqCount, respCount, if_neg hcc] at hcount ⊢
          omega
      · simp [chanRun, chanStep, hc'] at h

theorem chanRun_append (s : ChanState) (p q : List ChanEvent) :
    chanRun s (p ++ q)
      = match chanRun s p with
        | none => none
        | some s' => chanRun s' q := by
  induction p generalizing s with
  | nil => rfl
  | cons e es ih =>
    simp only [List.cons_append, chanRun]
    cases chanStep s e with
    | none => rfl
    | some s1 => exact ih s1

theorem chanRun_alternates (t : List ChanEvent) :
    ∀ (s s' : ChanState), chanRun s t = some s' → ∀ c,
      alternatesFrom (!(s c)) (chanProj c t) = true := by
  induction t with
  | nil =>
    intro s s' h c
    simp [chanProj, alternatesFrom]
  | cons e es ih =>
    intro s s' h c
    cases e with
    | request c' =>
      by_cases hc' : s c' = true
      · simp [chanRun, chanStep, hc'] at h
      · simp only [chanRun, chanStep, if_neg hc'] at h
        have halt := ih _ s' h c
        by_cases hcc : c' = c
        · subst hcc
          rw [setChan_same] at halt
          have hsc : s c' = false := by
            cases hsb : s c' with
            | false => rfl
            | true => exact absurd hsb hc'
          simp only [chanProj, List.filterMap_cons, if_pos rfl, hsc,
            alternatesFrom, Bool.not_false, beq_self_eq_true, Bool.true_and]
          simpa [chanProj] using halt
        · rw [setChan_other s c' c true (fun h2 => hcc h2.symm)] at halt
          simpa [chanProj, List.filterMap_cons, hcc] using halt
    | response c' =>
      by_cases hc' : s c' = true
      · simp only [chanRun, chanStep, if_pos hc'] at h
        have halt := ih _ s' h c
        by_cases hcc : c' = c
        · subst hcc
          rw [setChan_same] at halt
          simp only [chanProj, List.filterMap_cons, if_pos rfl, hc',
            alternatesFrom, Bool.not_true, beq_self_eq_true, Bool.true_and]
          simpa [chanProj] using halt
        · rw [setChan_other s c' c false (fun h2 => hcc h2.symm)] at halt
          simpa [chanProj, List.filterMap_cons, hcc] using halt
      · simp [chanRun, chanStep, hc'] at h

/-- Claim C1: in every protocol-valid trace, at every point (every
prefix) and on every channel of the channel set, at most one request is
outstanding: the number of responses never exceeds the number of
requests, the number of requests never exceeds responses plus one, and
the per-channel projection strictly alternates request, response,
request, … so request/response pairs on one channel are strictly
ordered with no pipelining. -/
theorem channel_one_outstanding (t p : List ChanEvent) (c : Channel)
    (hv : validTrace t) (hp : p <+: t) :
    respCount c p ≤ reqCount c p
    ∧ reqCount c p ≤ respCount c p + 1
    ∧ alternatesFrom true (chanProj c p) = true := by
  obtain ⟨q, rfl⟩ := hp
  unfold validTrace at hv
  rw [chanRun_append] at hv
  cases hrun : chanRun initChan p with
  | none => rw [hrun] at hv; simp at hv
  | some s' =>
    have hcount := chanRun_count p initChan s' hrun c
    have halt := chanRun_alternates p initChan s' hrun c
    simp only [initChan, Bool.not_false, Bool.false_eq_true, if_false] at hcount halt
    refine ⟨?_, ?_, halt⟩ <;>
      (cases hs : s' c <;> simp [hs] at hcount <;> omega)

/-- Witness for C1: the concrete valid trace request/response on
`dispatch` followed by a request on `audio`, with the prefix consisting
of the completed dispatch round-trip. -/
theorem channel_one_outstanding_witness :
    respCount .dispatch [.request .dispatch, .response .dispatch]
      ≤ reqCount .dispatch [.request .dispatch, .response .dispatch]
    ∧ reqCount .dispatch [.request .dispatch, .response .dispatch]
      ≤ respCount .dispatch [.request .dispatch, .response .dispatch] + 1
    ∧ alternatesFrom true
        (chanProj .dispatch [.request .dispatch, .response .dispatch]) = true :=
  channel_one_outstanding
    [.request .dispatch, .response .dispatch, .request .audio]
    [.request .dispatch, .response .dispatch] .dispatch
    (by unfold validTrace; decide) ⟨[.request .audio], rfl⟩

/-! ## Lemmas and claim theorem for the host-callback guard -/

theorem cbPcSet_same (pc : Caller → Nat) (t : Caller) (n : Nat) :
    cbPcSet pc t n t = n := by
  simp [cbPcSet]

theorem cbPcSet_other (pc : Caller → Nat) (t u : Caller) (n : Nat)
    (h : ¬u = t) : cbPcSet pc t n u = pc u := by
  simp [cbPcSet, h]

theorem flatMap_congr_mem {α β : Type} (l : List α) (f g : α → List β)
    (h : ∀ x ∈ l, f x = g x) : l.flatMap f = l.flatMap g := by
  induction l with
  | nil => rfl
  | cons a as ih =>
    simp only [List.flatMap_cons]
    rw [h a (List.mem_cons_self _ _), ih (fun x hx => h x (List.mem_cons_of_mem _ hx))]

theorem cbExec_inv (s s' : CbState) (t : Caller) (a : CbAction)
    (hinv : CbInv s) (h : cbExec s t a = some s') : CbInv s' := by
  obtain ⟨hbound, hlock, order, hnd, hmem, htr, hlast⟩ := hinv
  cases a with
  | acquire =>
    simp only [cbExec] at h
    split at h
    case isFalse => exact Option.noConfusion h
    case isTrue hc =>
      obtain ⟨hpc0, hlk⟩ := hc
      have hs' := Option.some.inj h
      subst hs'
      have htnotin : t ∉ order := by
        intro hin
        have := (hmem t).mp hin
        omega
      refine ⟨?_, ?_, order, hnd, ?_, ?_, ?_⟩
      · intro u
        by_cases hu : u = t
        · subst hu; simp [cbPcSet_same]
        · show cbPcSet s.pc t 1 u ≤ 4
          rw [cbPcSet_other _ _ _ _ hu]; exact hbound u
      · intro u hpu
        dsimp only at hpu
        by_cases hu : u = t
        · subst hu; rfl
        · show (some t : Option Caller) = some u
          rw [cbPcSet_other _ _ _ _ hu] at hpu
          exact absurd (hlock u hpu) (by rw [hlk]; simp)
      · intro u
        by_cases hu : u = t
        · subst hu
          show u ∈ order ↔ 2 ≤ cbPcSet s.pc u 1 u
          rw [cbPcSet_same]
          constructor
          · intro hin; exact absurd hin htnotin
          · omega
        · show u ∈ order ↔ 2 ≤ cbPcSet s.pc t 1 u
          rw [cbPcSet_other _ _ _ _ hu]; exact hmem u
      · show s.trace = order.flatMap fun u => cbContrib (cbPcSet s.pc t 1 u) u
        rw [htr]
        refine flatMap_congr_mem order _ _ (fun x hx => ?_)
        have hx' : ¬x = t := fun he => htnotin (he ▸ hx)
        rw [cbPcSet_other _ _ _ _ hx']
      · intro u hpu
        dsimp only at hpu
        by_cases hu : u = t
        · subst hu; rw [cbPcSet_same] at hpu; omega
        · rw [cbPcSet_other _ _ _ _ hu] at hpu
          exact hlast u hpu
  | send =>
    simp only [cbExec] at h
    split at h
    case isFalse => exact Option.noConfusion h
    case isTrue hc =>
      obtain ⟨hpc1, hlk⟩ := hc
      have hs' := Option.some.inj h
      subst hs'
      have htnotin : t ∉ order := by
        intro hin
        have := (hmem t).mp hin
        omega
      refine ⟨?_, ?_, order ++ [t], ?_, ?_, ?_, ?_⟩
      · intro u
        by_cases hu : u = t
        · subst hu; simp [cbPcSet_same]
        · show cbPcSet s.pc t 2 u ≤ 4
          rw [cbPcSet_other _ _ _ _ hu]; exact hbound u
      · intro u hpu
        dsimp only at hpu
        by_cases hu : u = t
        · subst hu; exact hlk
        · show s.lock = some u
          rw [cbPcSet_other _ _ _ _ hu] at hpu
          exact hlock u hpu
      · rw [List.nodup_append]
        refine ⟨hnd, List.nodup_singleton _, ?_⟩
        intro x hx hx2
        rw [List.mem_singleton] at hx2
        exact htnotin (hx2 ▸ hx)
      · intro u
        by_cases hu : u = t
        · subst hu
          show u ∈ order ++ [u] ↔ 2 ≤ cbPcSet s.pc u 2 u
          rw [cbPcSet_same]
          constructor
          · intro _; omega
          · intro _; exact List.mem_append_right _ (List.mem_singleton_self _)
        · show u ∈ order ++ [t] ↔ 2 ≤ cbPcSet s.pc t 2 u
          rw [cbPcSet_other _ _ _ _ hu, List.mem_append]
          constructor
          · intro hin
            rcases hin with hin | hin
            · exact (hmem u).mp hin
            · rw [List.mem_singleton] at hin; exact absurd hin hu
          · intro h2
            exact Or.inl ((hmem u).mpr h2)
      · show s.trace ++ [CbMsg.sent t]
            = (order ++ [t]).flatMap fun u => cbContrib (cbPcSet s.pc t 2 u) u
        rw [List.flatMap_append, htr]
        congr 1
        · refine flatMap_congr_mem order _ _ (fun x hx => ?_)
          have hx' : ¬x = t := fun he => htnotin (he ▸ hx)
          rw [cbPcSet_other _ _ _ _ hx']
        · simp [cbContrib, cbPcSet_same]
      · intro u hpu
        dsimp only at hpu
        by_cases hu : u = t
        · subst hu; exact List.getLast?_concat _
        · rw [cbPcSet_other _ _ _ _ hu] at hpu
          have h2 := hlock u (Or.inr (Or.inl hpu))
          have h3 : t = u := Option.some.inj (hlk.symm.trans h2)
          exact absurd h3.symm hu
  | recv =>
    simp only [cbExec] at h
    split at h
    case isFalse => exact Option.noConfusion h
    case isTrue hc =>
      obtain ⟨hpc2, hlk⟩ := hc
      have hs' := Option.some.inj h
      subst hs'
      obtain ⟨order₀, rfl⟩ := List.getLast?_eq_some_iff.mp (hlast t hpc2)
      have htnotin0 : t ∉ order₀ := by
        rw [List.nodup_append] at hnd
        intro hin
        exact hnd.2.2 hin (List.mem_singleton_self _)
      refine ⟨?_, ?_, order₀ ++ [t], hnd, ?_, ?_, ?_⟩
      · intro u
        by_cases hu : u = t
        · subst hu; simp [cbPcSet_same]
        · show cbPcSet s.pc t 3 u ≤ 4
          rw [cbPcSet_other _ _ _ _ hu]; exact hbound u
      · intro u hpu
        dsimp only at hpu
        by_cases hu : u = t
        · subst hu; exact hlk
        · show s.lock = some u
          rw [cbPcSet_other _ _ _ _ hu] at hpu
          exact hlock u hpu
      · intro u
        by_cases hu : u = t
        · subst hu
          show u ∈ order₀ ++ [u] ↔ 2 ≤ cbPcSet s.pc u 3 u
          rw [cbPcSet_same]
          constructor
          · intro _; omega
          · intro _; exact List.mem_append_right _ (List.mem_singleton_self _)
        · show u ∈ order₀ ++ [t] ↔ 2 ≤ cbPcSet s.pc t 3 u
          rw [cbPcSet_other _ _ _ _ hu, List.mem_append]
          have hms := hmem u
          rw [List.mem_append] at hms
          constructor
          · intro hin
            rcases hin with hin | hin
            · exact hms.mp (Or.inl hin)
            · rw [List.mem_singleton] at hin; exact absurd hin hu
          · intro h2
            rcases hms.mpr h2 with hin | hin
            · exact Or.inl hin
            · rw [List.mem_singleton] at hin; exact absurd hin hu
      · show s.trace ++ [CbMsg.received t]
            = (order₀ ++ [t]).flatMap fun u => cbContrib (cbPcSet s.pc t 3 u) u
        rw [List.flatMap_append, htr, List.flatMap_append]
        have hcongr : (order₀.flatMap fun u => cbContrib (s.pc u) u)
            = order₀.flatMap fun u => cbContrib (cbPcSet s.pc t 3 u) u := by
          refine flatMap_congr_mem order₀ _ _ (fun x hx => ?_)
          have hx' : ¬x = t := fun he => htnotin0 (he ▸ hx)
          rw [cbPcSet_other _ _ _ _ hx']
        rw [← hcongr]
        simp [cbContrib, cbPcSet_same, hpc2]
      · intro u hpu
        dsimp only at hpu
        by_cases hu : u = t
        · subst hu; rw [cbPcSet_same] at hpu; omega
        · rw [cbPcSet_other _ _ _ _ hu] at hpu
          have h2 := hlock u (Or.inr (Or.inl hpu))
          have h3 : t = u := Option.some.inj (hlk.symm.trans h2)
          exact absurd h3.symm hu
  | release =>
    simp only [cbExec] at h
    split at h
    case isFalse => exact Option.noConfusion h
    case isTrue hc =>
      obtain ⟨hpc3, hlk⟩ := hc
      have hs' := Option.some.inj h
      subst hs'
      refine ⟨?_, ?_, order, hnd, ?_, ?_, ?_⟩
      · intro u
        by_cases hu : u = t
        · subst hu; simp [cbPcSet_same]
        · show cbPcSet s.pc t 4 u ≤ 4
          rw [cbPcSet_other _ _ _ _ hu]; exact hbound u
      · intro u hpu
        dsimp only at hpu
        exfalso
        by_cases hu : u = t
        · subst hu; rw [cbPcSet_same] at hpu; omega
        · rw [cbPcSet_other _ _ _ _ hu] at hpu
          have h2 := hlock u hpu
          have h3 : t = u := Option.some.inj (hlk.symm.trans h2)
          exact hu h3.symm
      · intro u
        by_cases hu : u = t
        · subst hu
          show u ∈ order ↔ 2 ≤ cbPcSet s.pc u 4 u
          rw [cbPcSet_same]
          constructor
          · intro _; omega
          · intro _; exact (hmem u).mpr (by omega)
        · show u ∈ order ↔ 2 ≤ cbPcSet s.pc t 4 u
          rw [cbPcSet_other _ _ _ _ hu]; exact hmem u
      · show s.trace = order.flatMap fun u => cbContrib (cbPcSet s.pc t 4 u) u
        rw [htr]
        refine flatMap_congr_mem order _ _ (fun x hx => ?_)
        by_cases hx' : x = t
        · subst hx'
          rw [cbPcSet_same, hpc3]
          simp [cbContrib]
        · rw [cbPcSet_other _ _ _ _ hx']
      · intro u hpu
        dsimp only at hpu
        by_cases hu : u = t
        · subst hu; rw [cbPcSet_same] at hpu; omega
        · rw [cbPcSet_other _ _ _ _ hu] at hpu
          have h2 := hlock u (Or.inr (Or.inl hpu))
          have h3 : t = u := Option.some.inj (hlk.symm.trans h2)
          exact absurd h3.symm hu

theorem cbRun_inv (sched : List (Caller × CbAction)) :
    ∀ (s s' : CbState), CbInv s → cbRun s sched = some s' → CbInv s' := by
  induction sched with
  | nil =>
    intro s s' hinv h
    have hs := Option.some.inj h
    rw [← hs]
    exact hinv
  | cons p rest ih =>
    intro s s' hinv h
    obtain ⟨t, a⟩ := p
    cases hstep : cbExec s t a with
    | none =>
      simp only [cbRun, hstep] at h
      exact Option.noConfusion h
    | some s1 =>
      simp only [cbRun, hstep] at h
      exact ih s1 s' (cbExec_inv s s1 t a hinv hstep) h

theorem cbInit_inv : CbInv cbInit := by
  refine ⟨fun t => by simp [cbInit], fun t ht => by simp [cbInit] at ht,
    [], List.nodup_nil, ?_, rfl, ?_⟩
  · intro t
    simp [cbInit]
  · intro t ht
    simp [cbInit] at ht

theorem caller_pair_order (order : List Caller) (hnd : order.Nodup)
    (h0 : Caller.c0 ∈ order) (h1 : Caller.c1 ∈ order) :
    order = [.c0, .c1] ∨ order = [.c1, .c0] := by
  have hlen : order.length ≤ 2 := by
    have hcard := List.Nodup.length_le_card hnd
    have hc2 : Fintype.card Caller = 2 := rfl
    omega
  rcases order with _ | ⟨a, _ | ⟨b, _ | ⟨c, rest⟩⟩⟩
  · exact absurd h0 (List.not_mem_nil _)
  · rw [List.mem_singleton] at h0 h1
    exact absurd (h0.trans h1.symm) (by decide)
  · cases a <;> cases b
    · simp at hnd
    · exact Or.inl rfl
    · exact Or.inr rfl
    · simp at hnd
  · exfalso
    simp only [List.length_cons] at hlen
    omega

/-- Claim C4: the host-callback guard serializes concurrent callback
attempts: a request is sent only while the sender holds the guard
(acquired at pc 1), the response is received while it still holds the
guard, and release happens only after the response (pc 3); consequently,
in every reachable state of any interleaving of the two callers, the
callback-channel trace is a concatenation of per-caller contiguous
round-trip blocks — never interleaved bytes — and when both callers have
completed, the trace is exactly one full round-trip followed by the
other. -/
theorem host_callback_serialized (sched : List (Caller × CbAction))
    (s : CbState) (h : cbRun cbInit sched = some s) :
    (∃ order : List Caller, order.Nodup
      ∧ s.trace = order.flatMap (fun t => cbContrib (s.pc t) t))
    ∧ (s.pc .c0 = 4 → s.pc .c1 = 4 →
        s.trace = [.sent .c0, .received .c0, .sent .c1, .received .c1]
        ∨ s.trace = [.sent .c1, .received .c1, .sent .c0, .received .c0])
    ∧ (∀ s1 t s2, cbExec s1 t .send = some s2 →
        s1.lock = some t ∧ s2.lock = some t ∧ s1.pc t = 1)
    ∧ (∀ s1 t s2, cbExec s1 t .recv = some s2 →
        s1.lock = some t ∧ s2.lock = some t ∧ s1.pc t = 2)
    ∧ (∀ s1 t s2, cbExec s1 t .release = some s2 → s1.pc t = 3) := by
  obtain ⟨hbound, hlock, order, hnd, hmem, htr, hlast⟩ :=
    cbRun_inv sched cbInit s cbInit_inv h
  refine ⟨⟨order, hnd, htr⟩, ?_, ?_, ?_, ?_⟩
  · intro h0 h1
    have hm0 : Caller.c0 ∈ order := (hmem .c0).mpr (by omega)
    have hm1 : Caller.c1 ∈ order := (hmem .c1).mpr (by omega)
    rcases caller_pair_order order hnd hm0 hm1 with rfl | rfl
    · left
      rw [htr]
      simp [cbContrib, h0, h1]
    · right
      rw [htr]
      simp [cbContrib, h0, h1]
  · intro s1 t s2 hex
    simp only [cbExec] at hex
    split at hex
    case isTrue hc =>
      have hs2 := Option.some.inj hex
      exact ⟨hc.2, by rw [← hs2]; exact hc.2, hc.1⟩
    case isFalse => exact Option.noConfusion hex
  · intro s1 t s2 hex
    simp only [cbExec] at hex
    split at hex
    case isTrue hc =>
      have hs2 := Option.some.inj hex
      exact ⟨hc.2, by rw [← hs2]; exact hc.2, hc.1⟩
    case isFalse => exact Option.noConfusion hex
  · intro s1 t s2 hex
    simp only [cbExec] at hex
    split at hex
    case isTrue hc => exact hc.1
    case isFalse => exact Option.noConfusion hex

/-- Witness for C4: running the schedule in which caller `c0` completes
its round-trip and then caller `c1` completes its own yields exactly the
two sequential round-trips on the callback channel. -/
theorem host_callback_serialized_witness :
    ((cbRun cbInit cbSched01).getD cbInit).trace
      = [.sent .c0, .received .c0, .sent .c1, .received .c1] := by
  have h := host_callback_serialized cbSched01
      ((cbRun cbInit cbSched01).getD cbInit) rfl
  rcases h.2.1 (by rfl) (by rfl) with htr | htr
  · exact htr
  · exact absurd htr (by decide)

/-! ## Lemmas and claim theorem for the pending MIDI buffer -/

theorem midiRun_during_audio (mid : List MidiEvent) :
    ∀ (s s2 : MidiState) (n : Nat), midiRun s mid = some s2 →
      MidiEvent.audioEnd ∉ mid → s.processing = some n →
      s.buffer <+: s2.buffer ∧ s2.processing = some n := by
  induction mid with
  | nil =>
    intro s s2 n h _ hp
    have hs : s = s2 := Option.some.inj h
    subst hs
    exact ⟨List.prefix_refl _, hp⟩
  | cons e es ih =>
    intro s s2 n h he hp
    have he' : MidiEvent.audioEnd ∉ es := fun hin => he (List.mem_cons_of_mem _ hin)
    cases e with
    | append b =>
      simp only [midiRun, midiExec] at h
      have := ih _ s2 n h he' hp
      exact ⟨List.IsPrefix.trans (List.prefix_append _ [b]) this.1, this.2⟩
    | audioBegin =>
      simp [midiRun, midiExec, hp] at h
    | audioEnd =>
      exact absurd (List.mem_cons_self _ _) he

/-- Claim C5: every MIDI batch in the buffer when an audio processing
call begins remains in the buffer (is not released) for the whole call,
even while further batches are appended concurrently during the call;
batches are removed only by the audio worker's end-of-call release,
which drops exactly the batches present at the call's start, leaving the
ones appended during the call queued for the next one. -/
theorem midi_batches_retained (s0 sb s2 : MidiState) (mid : List MidiEvent)
    (h0 : midiExec s0 .audioBegin = some sb)
    (hmid : MidiEvent.audioEnd ∉ mid)
    (h2 : midiRun sb mid = some s2) :
    s0.buffer <+: s2.buffer
    ∧ (∀ b, b ∈ s0.buffer → b ∈ s2.buffer)
    ∧ s2.processing = some s0.buffer.length
    ∧ (∀ s3, midiExec s2 .audioEnd = some s3 →
        s3.buffer = s2.buffer.drop s0.buffer.length) := by
  cases hq : s0.processing with
  | some m =>
    simp [midiExec, hq] at h0
  | none =>
    simp only [midiExec, hq] at h0
    have hsb := Option.some.inj h0
    subst hsb
    have hrun := midiRun_during_audio mid _ s2 s0.buffer.length h2 hmid rfl
    refine ⟨hrun.1, fun b hb => hrun.1.subset hb, hrun.2, ?_⟩
    intro s3 h3
    simp only [midiExec, hrun.2] at h3
    have := Option.some.inj h3
    rw [← this]

/-- Witness for C5: batch `1` is in the buffer when the audio call
begins, batch `2` is appended during the call; `1` stays in the buffer
throughout and the end-of-call release drops exactly `[1]`, leaving `2`
queued. -/
theorem midi_batches_retained_witness :
    ([1] : List Nat) <+: [1, 2]
    ∧ (1 : Nat) ∈ [1, 2]
    ∧ (MidiState.mk [1, 2] (some 1)).processing = some 1
    ∧ ∀ s3, midiExec ⟨[1, 2], some 1⟩ .audioEnd = some s3 → s3.buffer = [2] := by
  have h := midi_batches_retained ⟨[1], none⟩ ⟨[1], some 1⟩ ⟨[1, 2], some 1⟩
      [.append 2] rfl (by decide) rfl
  exact ⟨h.1, h.2.1 1 (by decide), h.2.2.1, fun s3 h3 => h.2.2.2 s3 h3⟩

/-! ## Claim theorem for peer disconnect and teardown -/

/-- Claim C6: when the peer process has exited or a channel's socket is
closed, every call on that channel returns the `PeerDisconnected` error
(the call is a total function, so it returns rather than hanging or
succeeding); the torn-down session has every channel closed and every
worker joined (no worker is left blocked), and every future call on any
channel of the torn-down session also fails with `PeerDisconnected`. -/
theorem peer_disconnect_fails_fast (s : Session) (c : Channel) (req : Nat)
    (h : s.peerAlive = false ∨ s.chanOpen c = false) :
    channelCall s c req = .error .PeerDisconnected
    ∧ tornDown (teardown s)
    ∧ (∀ c' r', channelCall (teardown s) c' r' = .error .PeerDisconnected) := by
  refine ⟨?_, ⟨fun c' => rfl, fun c' => rfl⟩,
    fun c' r' => by simp [channelCall, teardown]⟩
  rcases h with h | h <;> simp [channelCall, h]

/-- Witness for C6: a session whose peer has exited; the dispatch call
fails with `PeerDisconnected`. -/
theorem peer_disconnect_fails_fast_witness :
    channelCall ⟨fun _ => true, fun _ => false, false⟩ .dispatch 0
      = .error .PeerDisconnected ∧
    tornDown (teardown ⟨fun _ => true, fun _ => false, false⟩) := by
  have h := peer_disconnect_fails_fast ⟨fun _ => true, fun _ => false, false⟩
      .dispatch 0 (Or.inl rfl)
  exact ⟨h.1, h.2.1⟩

/-! ## Lemmas and claim theorem for architecture detection -/

theorem find_vst_architecture_ok_of_image (file : List Nat) (m : Nat)
    (hid : identifiesImage file m) :
    find_vst_architecture file
      = if m = 0x014C then .ok .vst_32
        else if m = 0x8664 then .ok .vst_64
        else .error .UnsupportedBinary := by
  obtain ⟨h1, l, h2, h3, h4⟩ := hid
  simp only [find_vst_architecture, h1, h2, h3, h4]
  simp

theorem image_of_find_vst_architecture_ok (file : List Nat)
    (arch : PluginArchitecture)
    (h : find_vst_architecture file = .ok arch) :
    identifiesImage file 0x8664 ∨ identifiesImage file 0x014C := by
  cases hm : readBytesLE file 0 2 with
  | none => simp [find_vst_architecture, hm] at h
  | some magic =>
    simp only [find_vst_architecture, hm] at h
    by_cases hmz : magic = 0x5A4D
    · subst hmz
      rw [if_pos rfl] at h
      cases hl : readBytesLE file 0x3C 4 with
      | none => simp [hl] at h
      | some l =>
        simp only [hl] at h
        cases hs : readBytesLE file l 4 with
        | none => simp [hs] at h
        | some sig =>
          simp only [hs] at h
          by_cases hsg : sig = 0x00004550
          · subst hsg
            rw [if_pos rfl] at h
            cases hmach : readBytesLE file (l + 4) 2 with
            | none => simp [hmach] at h
            | some m =>
              simp only [hmach] at h
              by_cases h32 : m = 0x014C
              · subst h32
                exact Or.inr ⟨hm, l, hl, hs, hmach⟩
              · by_cases h64 : m = 0x8664
                · subst h64
                  exact Or.inl ⟨hm, l, hl, hs, hmach⟩
                · simp [h32, h64] at h
          · simp [hsg] at h
    · simp [hmz] at h

theorem find_vst_architecture_shape (file : List Nat) :
    find_vst_architecture file = .error .UnsupportedBinary
    ∨ ∃ arch, find_vst_architecture file = .ok arch := by
  unfold find_vst_architecture
  cases readBytesLE file 0 2 with
  | none => exact Or.inl rfl
  | some magic =>
    dsimp only
    by_cases hmz : magic = 0x5A4D
    · rw [if_pos hmz]
      cases readBytesLE file 0x3C 4 with
      | none => exact Or.inl rfl
      | some l =>
        dsimp only
        cases readBytesLE file l 4 with
        | none => exact Or.inl rfl
        | some sig =>
          dsimp only
          by_cases hsg : sig = 0x00004550
          · rw [if_pos hsg]
            cases readBytesLE file (l + 4) 2 with
            | none => exact Or.inl rfl
            | some m =>
              dsimp only
              by_cases h32 : m = 0x014C
              · exact Or.inr ⟨.vst_32, by simp [h32]⟩
              · by_cases h64 : m = 0x8664
                · exact Or.inr ⟨.vst_64, by simp [h32, h64]⟩
                · exact Or.inl (by simp [h32, h64])
          · exact Or.inl (by simp [hsg])
    · exact Or.inl (by simp [hmz])

/-- Claim C8: architecture detection on a file whose binary header
identifies a 64-bit executable image returns the 64-bit tag, on a
32-bit image the 32-bit tag, and on any file that is not a recognized
executable image it fails with `UnsupportedBinary` instead of returning
an architecture tag; conversely an architecture tag is only ever
returned for a recognized image. -/
theorem find_vst_architecture_correct (file : List Nat) :
    (identifiesImage file 0x8664 → find_vst_architecture file = .ok .vst_64)
    ∧ (identifiesImage file 0x014C → find_vst_architecture file = .ok .vst_32)
    ∧ (¬identifiesImage file 0x8664 → ¬identifiesImage file 0x014C →
        find_vst_architecture file = .error .UnsupportedBinary)
    ∧ (∀ arch, find_vst_architecture file = .ok arch →
        identifiesImage file 0x8664 ∨ identifiesImage file 0x014C) := by
  refine ⟨?_, ?_, ?_, fun arch h => image_of_find_vst_architecture_ok file arch h⟩
  · intro hid
    rw [find_vst_architecture_ok_of_image file _ hid]
    rfl
  · intro hid
    rw [find_vst_architecture_ok_of_image file _ hid]
    rfl
  · intro h64 h32
    rcases find_vst_architecture_shape file with hsh | ⟨arch, hsh⟩
    · exact hsh
    · rcases image_of_find_vst_architecture_ok file arch hsh with hid | hid
      · exact absurd hid h64
      · exact absurd hid h32

/-- Witness for C8: the concrete 64-bit PE image is detected as 64-bit,
and the empty file (not an executable image) fails with
`UnsupportedBinary`. -/
theorem find_vst_architecture_correct_witness :
    find_vst_architecture peFile64 = .ok .vst_64
    ∧ find_vst_architecture [] = .error .UnsupportedBinary := by
  constructor
  · exact (find_vst_architecture_correct peFile64).1
      ⟨by decide, 0x40, by decide, by decide, by decide⟩
  · exact (find_vst_architecture_correct []).2.2.1
      (fun hid => absurd hid.1 (by decide))
      (fun hid => absurd hid.1 (by decide))

/-! ## Lemmas and claim theorem for the group endpoint resolver -/

theorem char_toNat_injective (c d : Char) (h : c.toNat = d.toNat) : c = d :=
  Char.ext (UInt32.ext h)

theorem char_toNat_lt (c : Char) : c.toNat < 1114112 := by
  have h := c.valid
  show c.val.toNat < 1114112
  rcases h with h | ⟨h1, h2⟩
  · omega
  · omega

theorem encodeChars_injective : ∀ (l1 l2 : List Char),
    encodeChars l1 = encodeChars l2 → l1 = l2 := by
  intro l1
  induction l1 with
  | nil =>
    intro l2 h
    cases l2 with
    | nil => rfl
    | cons d ds =>
      exfalso
      simp only [encodeChars] at h
      omega
  | cons c cs ih =>
    intro l2 h
    cases l2 with
    | nil =>
      exfalso
      simp only [encodeChars] at h
      omega
    | cons d ds =>
      simp only [encodeChars] at h
      have hc := char_toNat_lt c
      have hd := char_toNat_lt d
      have hmods : (c.toNat + 1) % 2097152 = (d.toNat + 1) % 2097152 := by
        rw [← Nat.mul_add_mod 2097152 (encodeChars cs) (c.toNat + 1),
          ← Nat.mul_add_mod 2097152 (encodeChars ds) (d.toNat + 1), h]
      rw [Nat.mod_eq_of_lt (by omega), Nat.mod_eq_of_lt (by omega)] at hmods
      have hdiv : encodeChars cs = encodeChars ds := by
        have h2 : (2097152 * encodeChars cs + (c.toNat + 1)) / 2097152
            = (2097152 * encodeChars ds + (d.toNat + 1)) / 2097152 := by rw [h]
        rw [Nat.mul_add_div (by norm_num), Nat.mul_add_div (by norm_num),
          Nat.div_eq_of_lt (by omega), Nat.div_eq_of_lt (by omega)] at h2
        omega
      rw [ih ds hdiv, char_toNat_injective c d (by omega)]

theorem decDigits_lt_ten : ∀ (fuel n : Nat), ∀ d ∈ decDigits fuel n, d < 10 := by
  intro fuel
  induction fuel with
  | zero =>
    intro n d hd
    simp [decDigits] at hd
  | succ f ih =>
    intro n d hd
    cases n with
    | zero => simp [decDigits] at hd
    | succ m =>
      simp only [decDigits] at hd
      rcases List.mem_cons.mp hd with h | h
      · subst h
        exact Nat.mod_lt _ (by norm_num)
      · exact ih _ d h

theorem decDigits_ofDigits : ∀ (fuel n : Nat), n ≤ fuel →
    Nat.ofDigits 10 (decDigits fuel n) = n := by
  intro fuel
  induction fuel with
  | zero =>
    intro n hn
    have hz : n = 0 := by omega
    subst hz
    rfl
  | succ f ih =>
    intro n hn
    cases n with
    | zero => rfl
    | succ m =>
      simp only [decDigits, Nat.ofDigits_cons]
      have hle : (m + 1) / 10 ≤ f := by omega
      rw [ih _ hle]
      omega

theorem map_digitToChar_injective : ∀ (l1 : List Nat), (∀ x ∈ l1, x < 10) →
    ∀ (l2 : List Nat), (∀ x ∈ l2, x < 10) →
    l1.map digitToChar = l2.map digitToChar → l1 = l2 := by
  intro l1
  induction l1 with
  | nil =>
    intro _ l2 _ h
    cases l2 with
    | nil => rfl
    | cons d ds => simp at h
  | cons c cs ih =>
    intro hb1 l2 hb2 h
    cases l2 with
    | nil => simp at h
    | cons d ds =>
      simp only [List.map_cons, List.cons.injEq] at h
      have hc : c < 10 := hb1 c (List.mem_cons_self _ _)
      have hd : d < 10 := hb2 d (List.mem_cons_self _ _)
      have hdec : ∀ a < 10, ∀ b < 10, digitToChar a = digitToChar b → a = b := by
        decide
      rw [hdec c hc d hd h.1,
        ih (fun x hx => hb1 x (List.mem_cons_of_mem _ hx)) ds
          (fun x hx => hb2 x (List.mem_cons_of_mem _ hx)) h.2]

theorem natToDecimal_injective (n1 n2 : Nat)
    (h : natToDecimal n1 = natToDecimal n2) : n1 = n2 := by
  by_cases h1 : n1 = 0 <;> by_cases h2 : n2 = 0
  · omega
  · exfalso
    simp only [natToDecimal, if_pos h1, if_neg h2] at h
    have hmap : (decDigits n2 n2).map digitToChar = ['0'] := by
      have hrev := congrArg List.reverse h
      simp only [List.reverse_reverse] at hrev
      rw [← hrev]
      rfl
    have hzero : List.map digitToChar [0] = ['0'] := rfl
    rw [← hzero] at hmap
    have hdd := map_digitToChar_injective (decDigits n2 n2)
      (decDigits_lt_ten n2 n2) [0] (by simp) hmap
    have hval := decDigits_ofDigits n2 n2 (Nat.le_refl n2)
    rw [hdd] at hval
    simp [Nat.ofDigits] at hval
    exact h2 hval.symm
  · exfalso
    simp only [natToDecimal, if_neg h1, if_pos h2] at h
    have hmap : (decDigits n1 n1).map digitToChar = ['0'] := by
      have hrev := congrArg List.reverse h
      simp only [List.reverse_reverse] at hrev
      rw [hrev]
      rfl
    have hzero : List.map digitToChar [0] = ['0'] := rfl
    rw [← hzero] at hmap
    have hdd := map_digitToChar_injective (decDigits n1 n1)
      (decDigits_lt_ten n1 n1) [0] (by simp) hmap
    have hval := decDigits_ofDigits n1 n1 (Nat.le_refl n1)
    rw [hdd] at hval
    simp [Nat.ofDigits] at hval
    exact h1 hval.symm
  · simp only [natToDecimal, if_neg h1, if_neg h2] at h
    have hmap := List.reverse_inj.mp h
    have hdd := map_digitToChar_injective (decDigits n1 n1)
      (decDigits_lt_ten n1 n1) (decDigits n2 n2) (decDigits_lt_ten n2 n2) hmap
    have hv1 := decDigits_ofDigits n1 n1 (Nat.le_refl n1)
    have hv2 := decDigits_ofDigits n2 n2 (Nat.le_refl n2)
    rw [hdd] at hv1
    omega

theorem generate_group_endpoint_data (g w : String) (a : PluginArchitecture) :
    (generate_group_endpoint g w a).data
      = "/tmp/yabridge-group-".data ++ (g.data ++ ("-".data
          ++ (natToDecimal (identityHash w) ++ ("-".data
          ++ ((archLabel a).data ++ ".sock".data))))) := by
  simp only [generate_group_endpoint, String.data_append, List.append_assoc]

/-- Claim C7: the group-endpoint resolver is deterministic — identical
group name, environment identity and architecture give identical paths
of the form `/tmp/yabridge-group-<group>-<identity_hash>-<arch>.sock` —
and changing the architecture or the environment identity while keeping
the other inputs fixed yields a distinct path. -/
theorem generate_group_endpoint_correct (g w w1 w2 : String)
    (a a1 a2 : PluginArchitecture) :
    (generate_group_endpoint g w a
      = "/tmp/yabridge-group-" ++ g ++ "-"
          ++ String.mk (natToDecimal (identityHash w)) ++ "-"
          ++ archLabel a ++ ".sock")
    ∧ (¬a1 = a2 →
        ¬generate_group_endpoint g w a1 = generate_group_endpoint g w a2)
    ∧ (¬w1 = w2 →
        ¬generate_group_endpoint g w1 a = generate_group_endpoint g w2 a) := by
  refine ⟨rfl, ?_, ?_⟩
  · intro hne heq
    have hd := congrArg String.data heq
    rw [generate_group_endpoint_data g w a1,
      generate_group_endpoint_data g w a2] at hd
    have h1 := List.append_cancel_left hd
    have h2 := List.append_cancel_left h1
    have h3 := List.append_cancel_left h2
    have h4 := List.append_cancel_left h3
    have h5 := List.append_cancel_right (List.append_cancel_left h4)
    have harch : archLabel a1 = archLabel a2 := String.ext h5
    cases a1 <;> cases a2
    · exact hne rfl
    · exact absurd harch (by decide)
    · exact absurd harch (by decide)
    · exact hne rfl
  · intro hne heq
    have hd := congrArg String.data heq
    rw [generate_group_endpoint_data g w1 a,
      generate_group_endpoint_data g w2 a] at hd
    have h1 := List.append_cancel_left hd
    have h2 := List.append_cancel_left h1
    have h3 := List.append_cancel_right (List.append_cancel_left h2)
    have h4 := natToDecimal_injective _ _ h3
    have h5 := encodeChars_injective _ _ h4
    exact hne (String.ext h5)

/-- Witness for C7: for group `"synths"`, changing the architecture with
identity fixed, or the identity with architecture fixed, changes the
endpoint path. -/
theorem generate_group_endpoint_correct_witness :
    ¬generate_group_endpoint "synths" "p" .vst_64
        = generate_group_endpoint "synths" "p" .vst_32
    ∧ ¬generate_group_endpoint "synths" "wa" .vst_64
        = generate_group_endpoint "synths" "wb" .vst_64 :=
  ⟨(generate_group_endpoint_correct "synths" "p" "p" "p" .vst_64 .vst_64
      .vst_32).2.1 (by decide),
   (generate_group_endpoint_correct "synths" "wa" "wa" "wb" .vst_64 .vst_64
      .vst_64).2.2 (by decide)⟩

end Yabridge
